import Mathlib

/-!
Verification of the inline-chat edit strategies
(inlineChatStrategies.ts): hunk distance and nearest-hunk selection,
terminal session notifications, progressive versus immediate edit
application, the undo-until loop, undo checkpoints, discard-all on
cancel, the progressive pacing rate, and the preview finalize guard.

Line numbers in comments refer to
src/vs/workbench/contrib/inlineChat/browser/inlineChatStrategies.ts.
-/

namespace InlineChat

/-- Hunk lifecycle states, from HunkState in inlineChatSession. -/
inductive HunkState where
  | Pending
  | Accepted
  | Discarded
deriving DecidableEq, Repr

/-- A hunk as the selection code sees it: the first modified range
(getRangesN()[0]) reduced to its start and end line numbers, plus the
lifecycle state. -/
structure Hunk where
  startLineNumber : Int
  endLineNumber : Int
  state : HunkState
deriving DecidableEq, Repr

/-- The scalar distance computed at lines 347-349 and 622-625:
zoneLineNumber <= startLineNumber ? startLineNumber - zoneLineNumber
: zoneLineNumber - endLineNumber. -/
def hunkDistance (zoneLineNumber : Int) (h : Hunk) : Int :=
  if zoneLineNumber ≤ h.startLineNumber then
    h.startLineNumber - zoneLineNumber
  else
    zoneLineNumber - h.endLineNumber

/-- One step of the nearest-hunk fold, lines 351-364: the running best
is replaced only on a strictly smaller distance, so on ties the earlier
hunk is kept. Lines 654-656 use the equivalent strict comparison
data.distance < widgetData.distance. -/
def nearerStep (zoneLineNumber : Int) (best : Option Hunk) (h : Hunk) : Option Hunk :=
  match best with
  | none => some h
  | some b =>
      if hunkDistance zoneLineNumber b > hunkDistance zoneLineNumber h then some h else some b

/-- Nearest-hunk selection: filter to Pending hunks (line 312, and the
state guard at line 654) and fold the strict-improvement step over them
in store iteration order. -/
def selectNearest (zoneLineNumber : Int) (hunks : List Hunk) : Option Hunk :=
  (hunks.filter fun h => decide (h.state = HunkState.Pending)).foldl
    (nearerStep zoneLineNumber) none

/-- The undo model: the current alternative version id and the stack of
previous alternative version ids, most recent first. canUndo is the
stack being nonempty; a single undo pops the stack. -/
def undoLoop (target : Int) : Int → List Int → Int × List Int
  | v, [] => (v, [])
  | v, v' :: r => if target < v then undoLoop target v' r else (v, v' :: r)

/-- The alternative version after j undo steps from version v with
stack of previous versions. -/
def versionAt (v : Int) (stack : List Int) : Nat → Int
  | 0 => v
  | j + 1 => stack.getD j v

/-! ## Terminal session notifications (C3)

In LivePreviewStrategy the update cycle at lines 314-326 fires
onDidAccept when no Pending hunk remains and some hunk is Accepted,
otherwise onDidDiscard; LiveStrategy does the same at lines 680-694.
The cycle runs after every accept or discard action on a hunk. -/

/-- The two terminal session notifications. -/
inductive SessionEvent where
  | accepted
  | discarded
deriving DecidableEq, Repr

/-- One user action: accept (true) or discard (false) the hunk at the
given store index. -/
structure HunkAction where
  idx : Nat
  accept : Bool
deriving DecidableEq, Repr

/-- Effect of an action on the list of hunk states. -/
def applyHunkAction (hs : List HunkState) (a : HunkAction) : List HunkState :=
  hs.set a.idx (if a.accept then HunkState.Accepted else HunkState.Discarded)

/-- Events fired by one re-render cycle (lines 314-326 and 680-694):
nothing while a Pending hunk remains; once none remains, onDidAccept
when some hunk ended Accepted, else onDidDiscard. -/
def renderEvents (hs : List HunkState) : List SessionEvent :=
  if HunkState.Pending ∈ hs then []
  else if HunkState.Accepted ∈ hs then [SessionEvent.accepted]
  else [SessionEvent.discarded]

/-- Run a sequence of actions; each action is followed by a re-render
cycle. Returns the final hunk states and all events fired. -/
def runHunkActions : List HunkState → List HunkAction → List HunkState × List SessionEvent
  | hs, [] => (hs, [])
  | hs, a :: rest =>
      let hs2 := applyHunkAction hs a
      let res := runHunkActions hs2 rest
      (res.1, renderEvents hs2 ++ res.2)

/-- A run is valid when every action targets a hunk that is Pending at
the time the action executes (accept and discard are exposed only for
the nearest Pending hunk). -/
def validRun : List HunkState → List HunkAction → Bool
  | _, [] => true
  | hs, a :: rest =>
      decide (hs.get? a.idx = some HunkState.Pending) && validRun (applyHunkAction hs a) rest

/-! ## Documents and edits (C4, C7)

The document is a list of characters; an edit replaces the range
[start, start + len) with new text. pushEditOperations semantics and
the progressive sub-edit machinery (asProgressiveEdit and
performAsyncTextEdit in utils.ts) are not under src. -/

/-- A single edit operation: replace len characters at start with
text. -/
structure TextEdit where
  start : Nat
  len : Nat
  text : List Char
deriving DecidableEq, Repr

/-- Modelled from the spec: applying one whole edit operation to the
document, replacing the addressed range with the new text
(pushEditOperations for a single operation; ITextModel is not under
src). -/
def applyEdit (doc : List Char) (e : TextEdit) : List Char :=
  doc.take e.start ++ e.text ++ doc.drop (e.start + e.len)

/-- Insert text at a position of the document. -/
def insertAt (doc : List Char) (pos : Nat) (text : List Char) : List Char :=
  doc.take pos ++ text ++ doc.drop pos

/-- Apply a list of sub-edit chunks left to right, each inserted where
the previous one ended. -/
def applyChunksFrom : Nat → List Char → List (List Char) → List Char
  | _, doc, [] => doc
  | pos, doc, c :: cs => applyChunksFrom (pos + c.length) (insertAt doc pos c) cs

/-- Modelled from the spec: progressive application of one edit
(asProgressiveEdit and performAsyncTextEdit in utils.ts are not under
src). Spec 4.1: the timeline produces a finite sequence of sub-edits
whose concatenation equals the original edit text, applied left to
right; the addressed range is replaced and the chunks land in its
place one after another. -/
def progressiveApplyEdit (doc : List Char) (e : TextEdit) (chunks : List (List Char)) : List Char :=
  applyChunksFrom e.start (doc.take e.start ++ doc.drop (e.start + e.len)) chunks

/-- The SYNC path of EditModeStrategy._makeChanges (lines 112-120):
all edits applied as one transaction, in list order (spec 5). -/
def makeChanges (doc : List Char) (edits : List TextEdit) : List Char :=
  edits.foldl applyEdit doc

/-- The ASYNC path of EditModeStrategy._makeChanges (lines 101-110):
each edit in list order is handed to the timeline and applied sub-edit
by sub-edit; chunksOf gives the pacing decomposition the timeline
chose for an edit. -/
def makeProgressiveChanges (doc : List Char) (edits : List TextEdit)
    (chunksOf : TextEdit → List (List Char)) : List Char :=
  edits.foldl (fun d e => progressiveApplyEdit d e (chunksOf e)) doc

/-! ## Undo checkpoint before the first batch (C7) -/

/-- Observable actions of one _makeChanges call. -/
inductive StrategyTraceItem where
  | pushUndoStop
  | applyBatch (edits : List TextEdit)
deriving DecidableEq, Repr

/-- One _makeChanges call (lines 94-121): the edit counter is
incremented and, exactly when the new count is 1, pushUndoStop runs
before the batch is applied. -/
def makeChangesCall (editCount : Nat) (edits : List TextEdit) :
    Nat × List StrategyTraceItem :=
  (editCount + 1,
    (if editCount + 1 = 1 then [StrategyTraceItem.pushUndoStop] else [])
      ++ [StrategyTraceItem.applyBatch edits])

/-- Run a sequence of makeChanges / makeProgressiveChanges calls of one
strategy instance, threading the shared edit counter. -/
def runBatches : Nat → List (List TextEdit) → Nat × List StrategyTraceItem
  | c, [] => (c, [])
  | c, b :: bs =>
      let step := makeChangesCall c b
      let rest := runBatches step.1 bs
      (rest.1, step.2 ++ rest.2)

/-! ## Cancel discards all pending hunks (C8) -/

/-- Modelled from the spec: HunkData.discardAll (inlineChatSession.ts is
not under src). Spec 4.3: a store-level discardAll moves every
still-Pending hunk to Discarded; Accepted and Discarded are terminal. -/
def discardAll (hunks : List Hunk) : List Hunk :=
  hunks.map fun h =>
    if h.state = HunkState.Pending then { h with state := HunkState.Discarded } else h

/-- EditModeStrategy.cancel (lines 78-80) calls
session.hunkData.discardAll(); LiveStrategy.cancel (lines 487-490) only
adds a visual reset before delegating to it. -/
def cancelStrategy (hunks : List Hunk) : List Hunk :=
  discardAll hunks

/-! ## Progressive pacing rate (C9) -/

/-- Counting helper: walks the text tracking whether the previous
character was inside a word. -/
def countWordsAux : List Char → Bool → Nat
  | [], _ => 0
  | c :: cs, inWord =>
      if c = ' ' then countWordsAux cs false
      else (if inWord then 0 else 1) + countWordsAux cs true

/-- Modelled from the spec: countWords from chatWordCounter (not under
src), the words-per-second pacing source of spec 4.1 - the number of
maximal whitespace-separated words of the text. -/
def countWords (text : List Char) : Nat :=
  countWordsAux text false

/-- The rate computed at lines 103-106: durationInSec = duration / 1000
and speed = wordCount / durationInSec. -/
def speedOf (duration : ℚ) (text : List Char) : ℚ :=
  (countWords text : ℚ) / (duration / 1000)

/-- The rate as the claim words it: the length of the edit text divided
by the duration in seconds. Stated only for comparison with speedOf. -/
def claimedSpeedOf (duration : ℚ) (text : List Char) : ℚ :=
  (text.length : ℚ) / (duration / 1000)

/-! ## PreviewStrategy.apply finalize guard (C10) -/

/-- State touched by PreviewStrategy.apply: the real editor document
content, the textModel0 snapshot content, the hunks, and the trace of
full-range replacement texts pushed to the real document. -/
structure PreviewSessionState where
  editorText : List Char
  model0Text : List Char
  hunks : List Hunk
  pushedEdits : List (List Char)
deriving DecidableEq, Repr

/-- PreviewStrategy.apply, lines 165-189 (the untitled-model save at
lines 183-188 touches no field modelled here): only when the editor
buffer still equals the textModel0 buffer are all hunks accepted and
the full range replaced with the textModel0 value; otherwise nothing
happens. -/
def previewApply (s : PreviewSessionState) : PreviewSessionState :=
  if s.editorText = s.model0Text then
    { s with
      hunks := s.hunks.map fun h =>
        if h.state = HunkState.Pending then { h with state := HunkState.Accepted } else h,
      editorText := s.model0Text,
      pushedEdits := s.pushedEdits ++ [s.model0Text] }
  else
    s

/-! ## Theorems -/

/-- Claim C1, counterexample: for the hunk spanning lines 10-12 and
reference line 11, which lies strictly inside the hunk, the computed
distance is -1 (reference minus hunk end), not 0 as the claim states. -/
theorem hunkDistance_inside_counterexample :
    (10 : Int) < 11 ∧ (11 : Int) < 12 ∧
    hunkDistance 11 ⟨10, 12, HunkState.Pending⟩ = -1 ∧
    hunkDistance 11 ⟨10, 12, HunkState.Pending⟩ ≠ 0 := by
  decide

/-- Claim C1, amended: when the reference line is at or above the hunk
start line the distance is start minus reference; otherwise it is
reference minus end; in particular, for a reference line strictly
inside the hunk the distance is strictly negative, not 0. -/
theorem hunkDistance_cases (zone : Int) (h : Hunk) :
    (zone ≤ h.startLineNumber → hunkDistance zone h = h.startLineNumber - zone) ∧
    (h.startLineNumber < zone → hunkDistance zone h = zone - h.endLineNumber) ∧
    (h.startLineNumber < zone → zone < h.endLineNumber → hunkDistance zone h < 0) := by
  refine ⟨fun hle => ?_, fun hgt => ?_, fun hgt hlt => ?_⟩
  · simp [hunkDistance, hle]
  · simp [hunkDistance, not_le.mpr hgt]
  · simp only [hunkDistance, if_neg (not_le.mpr hgt)]
    omega

/-- Witness for hunkDistance_cases at concrete inputs. -/
theorem hunkDistance_cases_witness :
    ((11 : Int) ≤ 20 ∧ hunkDistance 11 ⟨20, 22, HunkState.Pending⟩ = 20 - 11) ∧
    ((30 : Int) < 41 ∧ hunkDistance 41 ⟨30, 32, HunkState.Pending⟩ = 41 - 32) ∧
    ((10 : Int) < 11 ∧ (11 : Int) < 14 ∧ hunkDistance 11 ⟨10, 14, HunkState.Pending⟩ < 0) :=
  ⟨⟨by decide, (hunkDistance_cases 11 ⟨20, 22, HunkState.Pending⟩).1 (by decide)⟩,
   ⟨by decide, (hunkDistance_cases 41 ⟨30, 32, HunkState.Pending⟩).2.1 (by decide)⟩,
   ⟨by decide, by decide,
    (hunkDistance_cases 11 ⟨10, 14, HunkState.Pending⟩).2.2 (by decide) (by decide)⟩⟩

/-- Claim C10: PreviewStrategy.apply leaves everything unchanged when
the editor content has diverged from the textModel0 snapshot: no hunk
is accepted, no edit is pushed, the content stays as it is. -/
theorem previewApply_frame (s : PreviewSessionState)
    (h : s.editorText ≠ s.model0Text) :
    previewApply s = s := by
  simp [previewApply, h]

/-- Witness for previewApply_frame: a concrete diverged state. -/
theorem previewApply_frame_witness :
    (PreviewSessionState.mk ['a'] ['b'] [] []).editorText ≠
      (PreviewSessionState.mk ['a'] ['b'] [] []).model0Text ∧
    previewApply (PreviewSessionState.mk ['a'] ['b'] [] []) =
      PreviewSessionState.mk ['a'] ['b'] [] [] :=
  ⟨by decide, previewApply_frame (PreviewSessionState.mk ['a'] ['b'] [] []) (by decide)⟩

/-- Claim C8: cancel moves every hunk still Pending to Discarded,
keeping its range, and leaves Accepted and Discarded hunks untouched. -/
theorem cancelStrategy_spec (hunks : List Hunk) (i : Nat) (h : Hunk)
    (hi : hunks.get? i = some h) :
    ((cancelStrategy hunks).get? i = some { h with state := HunkState.Discarded } ∧
       h.state = HunkState.Pending) ∨
    ((cancelStrategy hunks).get? i = some h ∧ h.state ≠ HunkState.Pending) := by
  rw [List.get?_eq_getElem?] at hi
  by_cases hp : h.state = HunkState.Pending
  · left
    refine ⟨?_, hp⟩
    simp [cancelStrategy, discardAll, List.get?_eq_getElem?, List.getElem?_map, hi, hp]
  · right
    refine ⟨?_, hp⟩
    simp [cancelStrategy, discardAll, List.get?_eq_getElem?, List.getElem?_map, hi, hp]

/-- Witness for cancelStrategy_spec: a store with one Pending and one
Accepted hunk; the Pending one at index 0 becomes Discarded. -/
theorem cancelStrategy_spec_witness :
    ([⟨1, 2, HunkState.Pending⟩, ⟨5, 6, HunkState.Accepted⟩] : List Hunk).get? 0 =
      some ⟨1, 2, HunkState.Pending⟩ ∧
    (((cancelStrategy [⟨1, 2, HunkState.Pending⟩, ⟨5, 6, HunkState.Accepted⟩]).get? 0 =
        some ⟨1, 2, HunkState.Discarded⟩ ∧
        (⟨1, 2, HunkState.Pending⟩ : Hunk).state = HunkState.Pending) ∨
      ((cancelStrategy [⟨1, 2, HunkState.Pending⟩, ⟨5, 6, HunkState.Accepted⟩]).get? 0 =
        some ⟨1, 2, HunkState.Pending⟩ ∧
        (⟨1, 2, HunkState.Pending⟩ : Hunk).state ≠ HunkState.Pending)) :=
  ⟨by decide,
   cancelStrategy_spec [⟨1, 2, HunkState.Pending⟩, ⟨5, 6, HunkState.Accepted⟩] 0
     ⟨1, 2, HunkState.Pending⟩ (by decide)⟩

/-- Helper: once the edit counter is at least 1, no later call pushes
an undo stop, so the trace is just the applied batches. -/
theorem runBatches_trace_of_pos (bs : List (List TextEdit)) :
    ∀ c : Nat, 1 ≤ c → (runBatches c bs).2 = bs.map StrategyTraceItem.applyBatch := by
  induction bs with
  | nil => intro c _; rfl
  | cons b bs ih =>
      intro c hc
      have hne : ¬(c + 1 = 1) := by omega
      simp only [runBatches, makeChangesCall, hne, if_false, List.nil_append, List.map_cons,
        List.singleton_append, List.cons.injEq, true_and]
      exact ih (c + 1) (by omega)

/-- Claim C7: over all _makeChanges calls of one strategy instance
(edit counter starting at 0), pushUndoStop is pushed exactly once,
before the very first batch is applied, and never again by later
batches. -/
theorem pushUndoStop_before_first_batch_only (b : List TextEdit) (bs : List (List TextEdit)) :
    (runBatches 0 (b :: bs)).2 =
      StrategyTraceItem.pushUndoStop :: StrategyTraceItem.applyBatch b ::
        bs.map StrategyTraceItem.applyBatch := by
  simp [runBatches, makeChangesCall, runBatches_trace_of_pos bs 1 le_rfl]

/-- Helper: a valid run with no Pending hunk left has no actions. -/
theorem validRun_eq_nil (hs : List HunkState) (acts : List HunkAction)
    (hv : validRun hs acts = true) (hnp : HunkState.Pending ∉ hs) :
    acts = [] := by
  cases acts with
  | nil => rfl
  | cons a rest =>
      exfalso
      apply hnp
      simp only [validRun, Bool.and_eq_true, decide_eq_true_eq] at hv
      have := hv.1
      rcases List.get?_eq_some.1 this with ⟨hlt, hget⟩
      exact hget ▸ List.get_mem hs _ _

/-- Claim C3: for every valid sequence of accept and discard actions
that starts with at least one Pending hunk and leaves none, the whole
run fires exactly one terminal notification: onDidAccept when at least
one hunk ended Accepted, otherwise onDidDiscard. -/
theorem session_terminal_event (hs0 : List HunkState) (acts : List HunkAction)
    (hv : validRun hs0 acts = true)
    (h0 : HunkState.Pending ∈ hs0)
    (hend : HunkState.Pending ∉ (runHunkActions hs0 acts).1) :
    (runHunkActions hs0 acts).2 =
      [if HunkState.Accepted ∈ (runHunkActions hs0 acts).1 then SessionEvent.accepted
       else SessionEvent.discarded] := by
  induction acts generalizing hs0 with
  | nil => exact absurd h0 hend
  | cons a rest ih =>
      simp only [validRun, Bool.and_eq_true, decide_eq_true_eq] at hv
      by_cases hp : HunkState.Pending ∈ applyHunkAction hs0 a
      · have htail := ih (applyHunkAction hs0 a) hv.2 hp
        simp only [runHunkActions] at hend ⊢
        rw [renderEvents, if_pos hp, List.nil_append]
        exact htail hend
      · have hrest : rest = [] := validRun_eq_nil _ _ hv.2 hp
        subst hrest
        simp only [runHunkActions, List.append_nil]
        rw [renderEvents, if_neg hp]
        by_cases ha : HunkState.Accepted ∈ applyHunkAction hs0 a
        · rw [if_pos ha, if_pos ha]
        · rw [if_neg ha, if_neg ha]

/-- Witness for session_terminal_event: two Pending hunks, accept the
first then discard the second; exactly one onDidAccept fires. -/
theorem session_terminal_event_witness :
    validRun [HunkState.Pending, HunkState.Pending] [⟨0, true⟩, ⟨1, false⟩] = true ∧
    HunkState.Pending ∈ [HunkState.Pending, HunkState.Pending] ∧
    HunkState.Pending ∉
      (runHunkActions [HunkState.Pending, HunkState.Pending] [⟨0, true⟩, ⟨1, false⟩]).1 ∧
    (runHunkActions [HunkState.Pending, HunkState.Pending] [⟨0, true⟩, ⟨1, false⟩]).2 =
      [if HunkState.Accepted ∈
          (runHunkActions [HunkState.Pending, HunkState.Pending] [⟨0, true⟩, ⟨1, false⟩]).1
        then SessionEvent.accepted else SessionEvent.discarded] :=
  ⟨by decide, by decide, by decide,
   session_terminal_event [HunkState.Pending, HunkState.Pending] [⟨0, true⟩, ⟨1, false⟩]
     (by decide) (by decide) (by decide)⟩

/-- Helper: the loop exits immediately when the current version is not
above the target. -/
theorem undoLoop_of_not_lt (target v : Int) (stack : List Int) (h : ¬ target < v) :
    undoLoop target v stack = (v, stack) := by
  cases stack with
  | nil => rfl
  | cons v' r => simp [undoLoop, h]

/-- Helper: versionAt commutes with uncovering one undo step, as long
as the index stays in the stack. -/
theorem versionAt_cons (v v' : Int) (r : List Int) (j : Nat) (hj : j ≤ r.length) :
    versionAt v (v' :: r) (j + 1) = versionAt v' r j := by
  cases j with
  | zero => rfl
  | succ i =>
      have hi : i < r.length := by omega
      simp only [versionAt, List.getD_cons_succ]
      rw [List.getD_eq_getElem r v hi, List.getD_eq_getElem r v' hi]

/-- Claim C6: the undo coordinator performs no step at all when the
current version is not above the target, and in general it performs
exactly k single-step undos for some k such that every state passed
through before the last still had version above the target and undo
steps remaining, while the final state fails one of the two
conditions. -/
theorem undoLoop_spec (target v : Int) (stack : List Int) :
    (¬ target < v → undoLoop target v stack = (v, stack)) ∧
    ∃ k, k ≤ stack.length ∧
      undoLoop target v stack = (versionAt v stack k, stack.drop k) ∧
      (∀ j, j < k → target < versionAt v stack j) ∧
      ¬(target < versionAt v stack k ∧ k < stack.length) := by
  refine ⟨undoLoop_of_not_lt target v stack, ?_⟩
  induction stack generalizing v with
  | nil =>
      exact ⟨0, le_rfl, rfl, fun j hj => absurd hj (Nat.not_lt_zero j), by simp⟩
  | cons v' r ih =>
      by_cases ht : target < v
      · obtain ⟨k, hkle, heq, hall, hstop⟩ := ih v'
        refine ⟨k + 1, by simpa using hkle, ?_, ?_, ?_⟩
        · rw [undoLoop, if_pos ht, versionAt_cons v v' r k hkle, List.drop_succ_cons]
          exact heq
        · intro j hj
          cases j with
          | zero => exact ht
          | succ i =>
              have hi : i ≤ r.length := by omega
              rw [versionAt_cons v v' r i hi]
              exact hall i (by omega)
        · rw [versionAt_cons v v' r k hkle]
          intro hcon
          apply hstop
          refine ⟨hcon.1, ?_⟩
          have hlen := hcon.2
          simp only [List.length_cons] at hlen
          omega
      · refine ⟨0, Nat.zero_le _, ?_, fun j hj => absurd hj (Nat.not_lt_zero j), ?_⟩
        · rw [undoLoop, if_neg ht]
          rfl
        · intro hcon
          exact ht hcon.1

/-- Witness for undoLoop_spec at a concrete input: target 3, current
version 5, undo stack with versions 4 and 1; the loop stops at
version 1 after two steps. -/
theorem undoLoop_spec_witness :
    (¬ (3 : Int) < 5 → undoLoop 3 5 [4, 1] = (5, [4, 1])) ∧
    ∃ k, k ≤ ([4, 1] : List Int).length ∧
      undoLoop 3 5 [4, 1] = (versionAt 5 [4, 1] k, ([4, 1] : List Int).drop k) ∧
      (∀ j, j < k → (3 : Int) < versionAt 5 [4, 1] j) ∧
      ¬((3 : Int) < versionAt 5 [4, 1] k ∧ k < ([4, 1] : List Int).length) :=
  undoLoop_spec 3 5 [4, 1]

/-- Claim C5, counterexample: current version 5, target 4, undo stack
holding versions 2 and 1. The target is below the current version and
an undo step is available, yet the loop ends at version 2, not 4, and
undo was not exhausted (a step to version 1 remains). -/
theorem undoTo_counterexample :
    (4 : Int) < 5 ∧ ([2, 1] : List Int) ≠ [] ∧
    undoLoop 4 5 [2, 1] = (2, [1]) ∧
    (undoLoop 4 5 [2, 1]).1 ≠ 4 ∧
    (undoLoop 4 5 [2, 1]).2 ≠ [] := by
  decide

/-- Helper: when the target is one of the reachable versions of a
strictly decreasing chain, the loop lands exactly on it. -/
theorem undoLoop_reaches_mem (target : Int) (stack : List Int) :
    ∀ v : Int, List.Pairwise (fun a b => b < a) (v :: stack) →
      target < v → target ∈ stack → (undoLoop target v stack).1 = target := by
  induction stack with
  | nil =>
      intro v _ _ hmem
      exact absurd hmem (List.not_mem_nil target)
  | cons v' r ih =>
      intro v hsorted ht hmem
      rw [undoLoop, if_pos ht]
      rcases List.mem_cons.1 hmem with hv' | hr
      · subst hv'
        rw [undoLoop_of_not_lt target target r (lt_irrefl target)]
      · have hsorted' := (List.pairwise_cons.1 hsorted).2
        have htv' : target < v' := (List.pairwise_cons.1 hsorted').1 target hr
        exact ih v' hsorted' htv' hr

/-- Helper: when every reachable version is above the target, the loop
consumes the whole stack and ends at the minimum reachable version. -/
theorem undoLoop_exhausts (target : Int) (stack : List Int) :
    ∀ v : Int, List.Pairwise (fun a b => b < a) (v :: stack) →
      target < v → (∀ x ∈ stack, target < x) → stack ≠ [] →
      (undoLoop target v stack).2 = [] ∧
      (undoLoop target v stack).1 ∈ stack ∧
      ∀ x ∈ stack, (undoLoop target v stack).1 ≤ x := by
  induction stack with
  | nil =>
      intro v _ _ _ hne
      exact absurd rfl hne
  | cons v' r ih =>
      intro v hsorted ht hall hne
      rw [undoLoop, if_pos ht]
      have hsorted' := (List.pairwise_cons.1 hsorted).2
      have htv' : target < v' := hall v' (List.mem_cons_self v' r)
      cases r with
      | nil => simp [undoLoop]
      | cons y r' =>
          have hall' : ∀ x ∈ y :: r', target < x := fun x hx =>
            hall x (List.mem_cons_of_mem v' hx)
          obtain ⟨h1, h2, h3⟩ := ih v' hsorted' htv' hall' (List.cons_ne_nil y r')
          refine ⟨h1, List.mem_cons_of_mem v' h2, ?_⟩
          intro x hx
          rcases List.mem_cons.1 hx with hxv' | hxr
          · subst hxv'
            exact le_of_lt ((List.pairwise_cons.1 hsorted').1 _ h2)
          · exact h3 x hxr

/-- Helper: the loop never stops above the target unless undo is
exhausted. -/
theorem undoLoop_stops_le (target : Int) (stack : List Int) :
    ∀ v : Int, (undoLoop target v stack).1 ≤ target ∨ (undoLoop target v stack).2 = [] := by
  induction stack with
  | nil =>
      intro v
      right
      rfl
  | cons v' r ih =>
      intro v
      by_cases ht : target < v
      · rw [undoLoop, if_pos ht]
        exact ih v'
      · rw [undoLoop, if_neg ht]
        left
        omega

/-- Claim C5, amended: with a strictly decreasing version chain and
target below the current version, undoTo ends exactly at the target
when the target is one of the reachable versions; when every reachable
version is above the target the loop exhausts the stack and ends at
the minimum reachable version; and in every case it stops at or below
the target unless undo ran out. -/
theorem undoTo_amended (target v : Int) (stack : List Int)
    (hsorted : List.Pairwise (fun a b => b < a) (v :: stack))
    (ht : target < v) :
    (target ∈ stack → (undoLoop target v stack).1 = target) ∧
    ((∀ x ∈ stack, target < x) → stack ≠ [] →
      (undoLoop target v stack).2 = [] ∧
      (undoLoop target v stack).1 ∈ stack ∧
      ∀ x ∈ stack, (undoLoop target v stack).1 ≤ x) ∧
    ((undoLoop target v stack).1 ≤ target ∨ (undoLoop target v stack).2 = []) :=
  ⟨fun hmem => undoLoop_reaches_mem target stack v hsorted ht hmem,
   fun hall hne => undoLoop_exhausts target stack v hsorted ht hall hne,
   undoLoop_stops_le target stack v⟩

/-- Witness for undoTo_amended: chain 5, then stack versions 4 and 2,
target 2; the loop ends exactly at the reachable version 2. -/
theorem undoTo_amended_witness :
    List.Pairwise (fun a b => b < a) ((5 : Int) :: [4, 2]) ∧
    (2 : Int) < 5 ∧ (2 : Int) ∈ ([4, 2] : List Int) ∧
    (undoLoop 2 5 [4, 2]).1 = 2 :=
  ⟨by decide, by decide, by decide,
   (undoTo_amended 2 5 [4, 2] (by decide) (by decide)).1 (by decide)⟩

/-- Helper: folding the strict-improvement step over a list starting
from a candidate returns the first element of candidate-then-list with
minimal distance: everything before it is strictly farther, everything
after it at least as far. -/
theorem nearerStep_foldl_firstMin (zone : Int) :
    ∀ (t : List Hunk) (b : Hunk),
      ∃ c t1 t2, t.foldl (nearerStep zone) (some b) = some c ∧
        b :: t = t1 ++ c :: t2 ∧
        (∀ x ∈ t1, hunkDistance zone c < hunkDistance zone x) ∧
        (∀ x ∈ t2, hunkDistance zone c ≤ hunkDistance zone x) := by
  intro t
  induction t with
  | nil =>
      intro b
      exact ⟨b, [], [], rfl, rfl, by simp, by simp⟩
  | cons h t ih =>
      intro b
      rw [List.foldl_cons]
      by_cases hcmp : hunkDistance zone b > hunkDistance zone h
      · rw [show nearerStep zone (some b) h = some h by simp [nearerStep, hcmp]]
        obtain ⟨c, t1, t2, hfold, hsplit, hbefore, hafter⟩ := ih h
        have hch : hunkDistance zone c ≤ hunkDistance zone h := by
          cases t1 with
          | nil =>
              simp only [List.nil_append] at hsplit
              injection hsplit with hhc _
              rw [hhc]
          | cons z t1' =>
              simp only [List.cons_append] at hsplit
              injection hsplit with hhz _
              exact le_of_lt (hhz ▸ hbefore z (List.mem_cons_self z t1'))
        refine ⟨c, b :: t1, t2, hfold, ?_, ?_, hafter⟩
        · rw [List.cons_append, ← hsplit]
        · intro x hx
          rcases List.mem_cons.1 hx with hxb | hxt1
          · subst hxb
            exact lt_of_le_of_lt hch hcmp
          · exact hbefore x hxt1
      · rw [show nearerStep zone (some b) h = some b by simp [nearerStep, hcmp]]
        have hbh : hunkDistance zone b ≤ hunkDistance zone h := not_lt.1 hcmp
        obtain ⟨c, t1, t2, hfold, hsplit, hbefore, hafter⟩ := ih b
        cases t1 with
        | nil =>
            simp only [List.nil_append] at hsplit
            injection hsplit with hbc ht2
            refine ⟨c, [], h :: t2, hfold, ?_, by simp, ?_⟩
            · rw [List.nil_append, ← hbc, ht2]
            · intro x hx
              rcases List.mem_cons.1 hx with hxh | hxt2
              · subst hxh
                rw [← hbc]
                exact hbh
              · exact hafter x hxt2
        | cons z t1' =>
            simp only [List.cons_append] at hsplit
            injection hsplit with hbz ht
            have hcb : hunkDistance zone c < hunkDistance zone b :=
              hbz ▸ hbefore z (List.mem_cons_self z t1')
            refine ⟨c, b :: h :: t1', t2, hfold, ?_, ?_, hafter⟩
            · rw [List.cons_append, List.cons_append, ← ht]
            · intro x hx
              rcases List.mem_cons.1 hx with hxb | hx'
              · subst hxb
                exact hcb
              · rcases List.mem_cons.1 hx' with hxh | hxt1'
                · subst hxh
                  exact lt_of_lt_of_le hcb hbh
                · exact hbefore x (List.mem_cons_of_mem z hxt1')

/-- Claim C2: nearest-hunk selection is a function of the reference
line and the store order, hence deterministic; when it returns a hunk,
that hunk is in the Pending-filtered store, every Pending hunk before
it in store order is strictly farther (so on ties the earlier hunk
wins) and every one after it at least as far (so it has minimum
distance). For the hunks 10-12 and 40-42 with reference line 25
(distances 13 and 15) the first is selected. -/
theorem selectNearest_first_min (zone : Int) (hunks : List Hunk) :
    (∀ c, selectNearest zone hunks = some c →
      ∃ t1 t2,
        hunks.filter (fun h => decide (h.state = HunkState.Pending)) = t1 ++ c :: t2 ∧
        (∀ x ∈ t1, hunkDistance zone c < hunkDistance zone x) ∧
        (∀ x ∈ t2, hunkDistance zone c ≤ hunkDistance zone x)) ∧
    selectNearest 25 [⟨10, 12, HunkState.Pending⟩, ⟨40, 42, HunkState.Pending⟩] =
      some ⟨10, 12, HunkState.Pending⟩ := by
  constructor
  · intro c hc
    unfold selectNearest at hc
    cases hfil : hunks.filter (fun h => decide (h.state = HunkState.Pending)) with
    | nil =>
        rw [hfil] at hc
        exact absurd hc (by simp)
    | cons p pt =>
        rw [hfil, List.foldl_cons,
          show nearerStep zone none p = some p from rfl] at hc
        obtain ⟨c', t1, t2, hfold, hsplit, hbefore, hafter⟩ :=
          nearerStep_foldl_firstMin zone pt p
        rw [hfold] at hc
        injection hc with hc'
        subst hc'
        exact ⟨t1, t2, hsplit, hbefore, hafter⟩
  · decide

/-- Witness for selectNearest_first_min: the split for the selected
hunk of the concrete two-hunk store. -/
theorem selectNearest_first_min_witness :
    ∃ t1 t2,
      ([⟨10, 12, HunkState.Pending⟩, ⟨40, 42, HunkState.Pending⟩] : List Hunk).filter
          (fun h => decide (h.state = HunkState.Pending)) =
        t1 ++ (⟨10, 12, HunkState.Pending⟩ : Hunk) :: t2 ∧
      (∀ x ∈ t1, hunkDistance 25 ⟨10, 12, HunkState.Pending⟩ < hunkDistance 25 x) ∧
      (∀ x ∈ t2, hunkDistance 25 ⟨10, 12, HunkState.Pending⟩ ≤ hunkDistance 25 x) :=
  (selectNearest_first_min 25 [⟨10, 12, HunkState.Pending⟩, ⟨40, 42, HunkState.Pending⟩]).1
    ⟨10, 12, HunkState.Pending⟩ (by decide)

/-- Helper: inserting nothing changes nothing. -/
theorem insertAt_nil (d : List Char) (p : Nat) : insertAt d p [] = d := by
  simp [insertAt]

/-- Helper: inserting at position 0 prepends. -/
theorem insertAt_zero (d t : List Char) : insertAt d 0 t = t ++ d := by
  simp [insertAt]

/-- Helper: inserting below a cons skips the head. -/
theorem insertAt_cons_succ (x : Char) (l t : List Char) (p : Nat) :
    insertAt (x :: l) (p + 1) t = x :: insertAt l p t := by
  simp [insertAt]

/-- Helper: two consecutive insertions, the second starting where the
first ended, amount to one insertion of the concatenation. -/
theorem insertAt_insertAt :
    ∀ (p : Nat) (d c c' : List Char),
      insertAt (insertAt d p c) (p + c.length) c' = insertAt d p (c ++ c')
  | 0, d, c, c' => by
      rw [insertAt_zero, insertAt_zero, Nat.zero_add]
      rw [insertAt, List.take_left, List.drop_left, List.append_assoc]
  | p + 1, [], c, c' => by
      have h1 : insertAt ([] : List Char) (p + 1) c = c := by
        simp [insertAt]
      have h2 : insertAt ([] : List Char) (p + 1) (c ++ c') = c ++ c' := by
        simp [insertAt]
      rw [h1, h2, insertAt, List.take_of_length_le (by omega),
        List.drop_of_length_le (by omega), List.append_nil]
  | p + 1, x :: xs, c, c' => by
      rw [insertAt_cons_succ, insertAt_cons_succ,
        show p + 1 + c.length = (p + c.length) + 1 from by omega,
        insertAt_cons_succ, insertAt_insertAt p xs c c']

/-- Helper: applying the chunks left to right from a position inserts
their concatenation at that position. -/
theorem applyChunksFrom_join :
    ∀ (cs : List (List Char)) (p : Nat) (d : List Char),
      applyChunksFrom p d cs = insertAt d p cs.flatten
  | [], p, d => by
      rw [applyChunksFrom, List.flatten_nil, insertAt_nil]
  | c :: cs, p, d => by
      rw [applyChunksFrom, applyChunksFrom_join cs (p + c.length) (insertAt d p c),
        insertAt_insertAt, List.flatten_cons]

/-- Helper: applying a whole edit is deleting the addressed range and
inserting the new text at its start. -/
theorem applyEdit_eq_insertAt (doc : List Char) (e : TextEdit) :
    applyEdit doc e =
      insertAt (doc.take e.start ++ doc.drop (e.start + e.len)) e.start e.text := by
  have h1 : List.take e.start (doc.take e.start ++ doc.drop (e.start + e.len)) =
      doc.take e.start := by
    rw [List.take_append_eq_append_take, List.take_take, Nat.min_self, List.length_take]
    by_cases hs : e.start ≤ doc.length
    · rw [Nat.min_eq_left hs, Nat.sub_self, List.take_zero, List.append_nil]
    · rw [List.drop_of_length_le (by omega), List.take_nil, List.append_nil]
  have h2 : List.drop e.start (doc.take e.start ++ doc.drop (e.start + e.len)) =
      doc.drop (e.start + e.len) := by
    rw [List.drop_append_eq_append_drop,
      List.drop_of_length_le (by rw [List.length_take]; omega), List.nil_append,
      List.length_take]
    by_cases hs : e.start ≤ doc.length
    · rw [Nat.min_eq_left hs, Nat.sub_self, List.drop_zero]
    · have hnil : doc.drop (e.start + e.len) = [] := List.drop_of_length_le (by omega)
      rw [hnil, List.drop_nil]
  rw [applyEdit, insertAt, h1, h2]

/-- Helper: for one edit, paced application of any chunk decomposition
whose concatenation is the edit text ends in the same document as the
immediate application of the whole edit. -/
theorem progressiveApplyEdit_eq (doc : List Char) (e : TextEdit)
    (chunks : List (List Char)) (hc : chunks.flatten = e.text) :
    progressiveApplyEdit doc e chunks = applyEdit doc e := by
  rw [progressiveApplyEdit, applyChunksFrom_join, hc, applyEdit_eq_insertAt]

/-- Claim C4: for every document and edit list, the immediate path of
_makeChanges and the paced path produce the same final document, for
every pacing decomposition whose sub-edit concatenation restores each
edit text (spec 4.1); pacing affects only intermediate states. -/
theorem makeProgressiveChanges_eq_makeChanges (doc : List Char) (edits : List TextEdit)
    (chunksOf : TextEdit → List (List Char))
    (hch : ∀ e ∈ edits, (chunksOf e).flatten = e.text) :
    makeProgressiveChanges doc edits chunksOf = makeChanges doc edits := by
  unfold makeProgressiveChanges makeChanges
  induction edits generalizing doc with
  | nil => rfl
  | cons e es ih =>
      rw [List.foldl_cons, List.foldl_cons,
        progressiveApplyEdit_eq doc e (chunksOf e) (hch e (List.mem_cons_self e es))]
      exact ih (applyEdit doc e) fun x hx => hch x (List.mem_cons_of_mem e hx)

/-- Witness for makeProgressiveChanges_eq_makeChanges: replacing two
characters of a concrete document by a three-character text paced in
two chunks. -/
theorem makeProgressiveChanges_eq_witness :
    (∀ e ∈ ([⟨1, 2, ['X', 'Y', 'Z']⟩] : List TextEdit),
      ((fun _ : TextEdit => [['X'], ['Y', 'Z']]) e).flatten = e.text) ∧
    makeProgressiveChanges ['a', 'b', 'c', 'd'] [⟨1, 2, ['X', 'Y', 'Z']⟩]
        (fun _ => [['X'], ['Y', 'Z']]) =
      makeChanges ['a', 'b', 'c', 'd'] [⟨1, 2, ['X', 'Y', 'Z']⟩] :=
  ⟨by decide,
   makeProgressiveChanges_eq_makeChanges ['a', 'b', 'c', 'd'] [⟨1, 2, ['X', 'Y', 'Z']⟩]
     (fun _ => [['X'], ['Y', 'Z']]) (by decide)⟩

/-- Claim C9, counterexample: for the text consisting of the letter a,
a space and the letter b (length 3, word count 2) and duration 1000 ms,
the code hands the timeline the rate 2, while the text length divided
by the duration in seconds is 3. -/
theorem speedOf_counterexample :
    countWords ['a', ' ', 'b'] = 2 ∧
    (['a', ' ', 'b'] : List Char).length = 3 ∧
    speedOf 1000 ['a', ' ', 'b'] = 2 ∧
    claimedSpeedOf 1000 ['a', ' ', 'b'] = 3 ∧
    speedOf 1000 ['a', ' ', 'b'] ≠ claimedSpeedOf 1000 ['a', ' ', 'b'] := by
  refine ⟨by decide, by decide, ?_, ?_, ?_⟩
  · rw [speedOf, show countWords ['a', ' ', 'b'] = 2 from by decide]
    norm_num
  · rw [claimedSpeedOf]
    norm_num
  · rw [speedOf, claimedSpeedOf, show countWords ['a', ' ', 'b'] = 2 from by decide]
    norm_num

/-- Claim C9, amended: the rate handed to the timeline is the word
count of the edit text divided by the duration in seconds
(duration / 1000); the divisor is the positive duration and never the
text, so it is nonzero, recovering the word count when multiplied
back, and zero-length text simply yields rate 0 rather than a division
by zero. -/
theorem speedOf_amended (duration : ℚ) (text : List Char) (hd : 0 < duration) :
    duration / 1000 ≠ 0 ∧
    speedOf duration text * (duration / 1000) = (countWords text : ℚ) ∧
    speedOf duration [] = 0 := by
  have hpos : (0 : ℚ) < duration / 1000 := by positivity
  refine ⟨hpos.ne', ?_, ?_⟩
  · rw [speedOf, div_mul_cancel₀ _ hpos.ne']
  · rw [speedOf, show countWords [] = 0 from rfl]
    norm_num

/-- Witness for speedOf_amended: duration 2000 ms and a two-letter
one-word text. -/
theorem speedOf_amended_witness :
    (0 : ℚ) < 2000 ∧
    ((2000 : ℚ) / 1000 ≠ 0 ∧
      speedOf 2000 ['h', 'i'] * ((2000 : ℚ) / 1000) = (countWords ['h', 'i'] : ℚ) ∧
      speedOf 2000 [] = 0) :=
  ⟨by norm_num, speedOf_amended 2000 ['h', 'i'] (by norm_num)⟩

end InlineChat
